import Mathlib

/-!
Verification of the incremental feed-collector (`collector.py`).

The Python source is embedded shallowly: strings are `String`/`List Char`,
Python dicts (which preserve insertion order) are association lists with
Python's update semantics, the remote sheet is a function from row index to
cell content, and the network is a parameter giving each request's outcome.
Python's Unicode case mapping is modelled for the alphabets the feed uses
(ASCII and Russian Cyrillic); all other characters are case-fixed points.
-/

namespace Collector

/-- Characters are compared through their code points. -/
theorem char_eq_iff_toNat {c d : Char} : c = d ↔ c.toNat = d.toNat := by
  constructor
  · intro h; rw [h]
  · intro h
    apply Char.eq_of_val_eq
    apply UInt32.eq_of_toBitVec_eq
    have h32 : c.val.toNat = d.val.toNat := h
    exact BitVec.eq_of_toNat_eq h32

theorem char_toNat_ofNat {n : Nat} (h : n < 0xD800) : (Char.ofNat n).toNat = n := by
  unfold Char.ofNat
  have hv : Nat.isValidChar n := Or.inl h
  rw [dif_pos hv]
  rfl

/-- Model of Python `str.lower` for one character, covering ASCII and the
Russian Cyrillic block actually present in the feed; other characters are
fixed. -/
def pyLower (c : Char) : Char :=
  if 0x410 ≤ c.toNat ∧ c.toNat ≤ 0x42F then Char.ofNat (c.toNat + 0x20)
  else if c.toNat = 0x401 then Char.ofNat 0x451
  else if 65 ≤ c.toNat ∧ c.toNat ≤ 90 then Char.ofNat (c.toNat + 32)
  else c

/-- Model of Python `str.upper` (and title-case, which agrees on these
alphabets) for one character. -/
def pyUpper (c : Char) : Char :=
  if 0x430 ≤ c.toNat ∧ c.toNat ≤ 0x44F then Char.ofNat (c.toNat - 0x20)
  else if c.toNat = 0x451 then Char.ofNat 0x401
  else if 97 ≤ c.toNat ∧ c.toNat ≤ 122 then Char.ofNat (c.toNat - 32)
  else c

theorem pyLower_toNat (c : Char) :
    (pyLower c).toNat =
      if 0x410 ≤ c.toNat ∧ c.toNat ≤ 0x42F then c.toNat + 0x20
      else if c.toNat = 0x401 then 0x451
      else if 65 ≤ c.toNat ∧ c.toNat ≤ 90 then c.toNat + 32
      else c.toNat := by
  unfold pyLower
  split
  · next h => exact char_toNat_ofNat (by omega)
  · split
    · exact char_toNat_ofNat (by omega)
    · split
      · next h => exact char_toNat_ofNat (by omega)
      · rfl

theorem pyUpper_toNat (c : Char) :
    (pyUpper c).toNat =
      if 0x430 ≤ c.toNat ∧ c.toNat ≤ 0x44F then c.toNat - 0x20
      else if c.toNat = 0x451 then 0x401
      else if 97 ≤ c.toNat ∧ c.toNat ≤ 122 then c.toNat - 32
      else c.toNat := by
  unfold pyUpper
  split
  · next h => exact char_toNat_ofNat (by omega)
  · split
    · exact char_toNat_ofNat (by omega)
    · split
      · next h => exact char_toNat_ofNat (by omega)
      · rfl

theorem pyLower_pyLower (c : Char) : pyLower (pyLower c) = pyLower c := by
  rw [char_eq_iff_toNat, pyLower_toNat (pyLower c), pyLower_toNat c]
  split
  · next h => rw [if_neg (by omega), if_neg (by omega), if_neg (by omega)]
  · split
    · rw [if_neg (by omega), if_neg (by omega), if_neg (by omega)]
    · split
      · next h => rw [if_neg (by omega), if_neg (by omega), if_neg (by omega)]
      · rfl

theorem pyUpper_pyUpper (c : Char) : pyUpper (pyUpper c) = pyUpper c := by
  rw [char_eq_iff_toNat, pyUpper_toNat (pyUpper c), pyUpper_toNat c]
  split
  · next h => rw [if_neg (by omega), if_neg (by omega), if_neg (by omega)]
  · split
    · rw [if_neg (by omega), if_neg (by omega), if_neg (by omega)]
    · split
      · next h => rw [if_neg (by omega), if_neg (by omega), if_neg (by omega)]
      · rfl

theorem char_isWhitespace_iff (c : Char) :
    c.isWhitespace = true ↔
      c.toNat = 32 ∨ c.toNat = 9 ∨ c.toNat = 13 ∨ c.toNat = 10 := by
  unfold Char.isWhitespace
  simp only [Bool.or_eq_true, decide_eq_true_eq]
  rw [char_eq_iff_toNat, char_eq_iff_toNat, char_eq_iff_toNat, char_eq_iff_toNat]
  have h1 : (' ' : Char).toNat = 32 := rfl
  have h2 : ('\t' : Char).toNat = 9 := rfl
  have h3 : ('\r' : Char).toNat = 13 := rfl
  have h4 : ('\n' : Char).toNat = 10 := rfl
  rw [h1, h2, h3, h4]
  tauto

theorem pyLower_isWhitespace (c : Char) :
    (pyLower c).isWhitespace = c.isWhitespace := by
  rw [Bool.eq_iff_iff, char_isWhitespace_iff, char_isWhitespace_iff, pyLower_toNat]
  split
  · omega
  · split
    · omega
    · split
      · omega
      · exact Iff.rfl

theorem pyUpper_isWhitespace (c : Char) :
    (pyUpper c).isWhitespace = c.isWhitespace := by
  rw [Bool.eq_iff_iff, char_isWhitespace_iff, char_isWhitespace_iff, pyUpper_toNat]
  split
  · omega
  · split
    · omega
    · split
      · omega
      · exact Iff.rfl

theorem pyLower_ne_colon {c : Char} (h : c ≠ ':') : pyLower c ≠ ':' := by
  intro hx
  apply h
  rw [char_eq_iff_toNat] at hx ⊢
  rw [pyLower_toNat] at hx
  have hc : (':' : Char).toNat = 58 := rfl
  rw [hc] at hx ⊢
  split at hx
  · omega
  · split at hx
    · omega
    · split at hx
      · omega
      · exact hx

theorem pyUpper_ne_colon {c : Char} (h : c ≠ ':') : pyUpper c ≠ ':' := by
  intro hx
  apply h
  rw [char_eq_iff_toNat] at hx ⊢
  rw [pyUpper_toNat] at hx
  have hc : (':' : Char).toNat = 58 := rfl
  rw [hc] at hx ⊢
  split at hx
  · omega
  · split at hx
    · omega
    · split at hx
      · omega
      · exact hx

/-! ### Field normalization (`normalize_field_name`, collector.py lines 118-124) -/

/-- Python `str.strip()` restricted to the whitespace characters the model
knows. -/
def pyStrip (l : List Char) : List Char :=
  ((l.dropWhile Char.isWhitespace).reverse.dropWhile Char.isWhitespace).reverse

/-- Worker for `re.sub` with a whitespace-run pattern: the flag records
whether the previous character was inside a whitespace run. -/
def collapseGo : Bool → List Char → List Char
  | _, [] => []
  | inRun, c :: cs =>
    if c.isWhitespace then
      if inRun then collapseGo true cs else ' ' :: collapseGo true cs
    else c :: collapseGo false cs

/-- `re.sub(r'\s+', ' ', l)`. -/
def collapseWs (l : List Char) : List Char := collapseGo false l

/-- Python `str.capitalize()`: first character title-cased, the rest
lower-cased. -/
def capitalize : List Char → List Char
  | [] => []
  | c :: cs => pyUpper c :: cs.map pyLower

/-- `str.replace(':', '_')`. -/
def replaceColon (l : List Char) : List Char :=
  l.map (fun c => if c = ':' then '_' else c)

/-- `name = name.strip()` followed by the trailing-colon removal branch. -/
def stripName (l : List Char) : List Char :=
  if (pyStrip l).getLast? = some ':' then pyStrip (pyStrip l).dropLast
  else pyStrip l

def normChars (l : List Char) : List Char :=
  capitalize (collapseWs (replaceColon (stripName l)))

def normalize_field_name (s : String) : String := String.mk (normChars s.data)

/-! Canonical-form predicates used to prove idempotence. -/

def noColon (l : List Char) : Prop := ∀ c ∈ l, c ≠ ':'

def wsSingle (l : List Char) : Prop :=
  (∀ c ∈ l, c.isWhitespace = true → c = ' ') ∧
    l.Chain' (fun a b => a.isWhitespace = false ∨ b.isWhitespace = false)

def noEdgeWs (l : List Char) : Prop :=
  (∀ c, l.head? = some c → c.isWhitespace = false) ∧
    (∀ c, l.getLast? = some c → c.isWhitespace = false)

theorem head_dropWhile_not {p : Char → Bool} {l : List Char} {c : Char}
    (h : (l.dropWhile p).head? = some c) : p c = false := by
  induction l with
  | nil => simp at h
  | cons a l ih =>
    rw [List.dropWhile_cons] at h
    split at h
    · exact ih h
    · next hp =>
      simp only [List.head?_cons, Option.some.injEq] at h
      subst h
      exact Bool.of_not_eq_true hp

theorem getLast_dropWhile_of_getLast {p : Char → Bool} {l : List Char} {c : Char}
    (hl : l.getLast? = some c) (hc : p c = false) :
    (l.dropWhile p).getLast? = some c := by
  induction l with
  | nil => simp at hl
  | cons a l ih =>
    rw [List.dropWhile_cons]
    cases l with
    | nil =>
      simp only [List.getLast?_singleton, Option.some.injEq] at hl
      subst hl
      rw [if_neg (by simp [hc])]
      simp
    | cons b m =>
      rw [List.getLast?_cons_cons] at hl
      split
      · exact ih hl
      · rw [List.getLast?_cons_cons]
        exact hl

theorem dropWhile_eq_self_of_head {p : Char → Bool} {l : List Char}
    (h : ∀ c, l.head? = some c → p c = false) : l.dropWhile p = l := by
  cases l with
  | nil => rfl
  | cons a l =>
    rw [List.dropWhile_cons, if_neg]
    simp [h a rfl]

theorem noEdgeWs_pyStrip (l : List Char) : noEdgeWs (pyStrip l) := by
  unfold pyStrip
  constructor
  · intro c hc
    rw [List.head?_reverse] at hc
    rcases hm : (l.dropWhile Char.isWhitespace).head? with _ | d
    · have : l.dropWhile Char.isWhitespace = [] := by
        cases hx : l.dropWhile Char.isWhitespace with
        | nil => rfl
        | cons x xs => rw [hx] at hm; simp at hm
      rw [this] at hc
      simp at hc
    · have hd : Char.isWhitespace d = false := head_dropWhile_not hm
      have hrev : (l.dropWhile Char.isWhitespace).reverse.getLast? = some d := by
        rw [List.getLast?_reverse]; exact hm
      have := getLast_dropWhile_of_getLast hrev hd
      rw [this] at hc
      cases hc
      exact hd
  · intro c hc
    rw [List.getLast?_reverse] at hc
    exact head_dropWhile_not hc

theorem pyStrip_eq_self {l : List Char} (h : noEdgeWs l) : pyStrip l = l := by
  unfold pyStrip
  rw [dropWhile_eq_self_of_head h.1]
  have : ∀ c, l.reverse.head? = some c → Char.isWhitespace c = false := by
    intro c hc
    rw [List.head?_reverse] at hc
    exact h.2 c hc
  rw [dropWhile_eq_self_of_head this, List.reverse_reverse]

theorem collapseGo_mem {b : Bool} {l : List Char} {c : Char}
    (h : c ∈ collapseGo b l) : (c ∈ l ∧ c.isWhitespace = false) ∨ c = ' ' := by
  induction l generalizing b with
  | nil => simp [collapseGo] at h
  | cons a l ih =>
    rw [collapseGo] at h
    split at h
    · next hws =>
      split at h
      · rcases ih h with ⟨hm, hw⟩ | hsp
        · exact Or.inl ⟨List.mem_cons_of_mem a hm, hw⟩
        · exact Or.inr hsp
      · rcases List.mem_cons.mp h with he | ht
        · exact Or.inr he
        · rcases ih ht with ⟨hm, hw⟩ | hsp
          · exact Or.inl ⟨List.mem_cons_of_mem a hm, hw⟩
          · exact Or.inr hsp
    · next hws =>
      rcases List.mem_cons.mp h with he | ht
      · subst he
        exact Or.inl ⟨List.mem_cons_self c l, Bool.of_not_eq_true hws⟩
      · rcases ih ht with ⟨hm, hw⟩ | hsp
        · exact Or.inl ⟨List.mem_cons_of_mem a hm, hw⟩
        · exact Or.inr hsp

theorem collapseGo_true_head {l : List Char} {c : Char}
    (h : (collapseGo true l).head? = some c) : c.isWhitespace = false := by
  induction l with
  | nil => simp [collapseGo] at h
  | cons a l ih =>
    rw [collapseGo] at h
    split at h
    · exact ih h
    · next hws =>
      simp only [List.head?_cons, Option.some.injEq] at h
      subst h
      exact Bool.of_not_eq_true hws

theorem collapseGo_chain (b : Bool) (l : List Char) :
    (collapseGo b l).Chain'
      (fun a c => a.isWhitespace = false ∨ c.isWhitespace = false) := by
  induction l generalizing b with
  | nil => simp [collapseGo]
  | cons a l ih =>
    rw [collapseGo]
    split
    · split
      · exact ih true
      · rw [List.chain'_cons']
        refine ⟨fun d hd => Or.inr (collapseGo_true_head hd), ih true⟩
    · next hws =>
      rw [List.chain'_cons']
      exact ⟨fun d _ => Or.inl (Bool.of_not_eq_true hws), ih false⟩

theorem collapseWs_wsSingle (l : List Char) : wsSingle (collapseWs l) := by
  constructor
  · intro c hc hw
    rcases collapseGo_mem hc with ⟨_, hn⟩ | hsp
    · rw [hw] at hn; cases hn
    · exact hsp
  · exact collapseGo_chain false l

theorem collapseGo_eq_self {l : List Char} (h : wsSingle l) :
    collapseGo false l = l ∧
      ((∀ c, l.head? = some c → c.isWhitespace = false) → collapseGo true l = l) := by
  induction l with
  | nil => exact ⟨rfl, fun _ => rfl⟩
  | cons a l ih =>
    have htail : wsSingle l := by
      refine ⟨fun c hc hw => h.1 c (List.mem_cons_of_mem a hc) hw, h.2.tail⟩
    rcases hws : a.isWhitespace with _ | _
    · constructor
      · rw [collapseGo, if_neg (by simp [hws])]
        rw [(ih htail).1]
      · intro _
        rw [collapseGo, if_neg (by simp [hws])]
        rw [(ih htail).1]
    · have hsp : a = ' ' := h.1 a (List.mem_cons_self a l) hws
      constructor
      · rw [collapseGo, if_pos (by simp [hws]), if_neg (by simp)]
        have hhead : ∀ c, l.head? = some c → c.isWhitespace = false := by
          intro c hc
          have := (List.chain'_cons'.mp h.2).1 c hc
          rcases this with hx | hx
          · rw [hws] at hx; cases hx
          · exact hx
        rw [(ih htail).2 hhead, hsp]
      · intro hhead
        have := hhead a rfl
        rw [hws] at this
        cases this

theorem collapseWs_eq_self {l : List Char} (h : wsSingle l) : collapseWs l = l :=
  (collapseGo_eq_self h).1

theorem collapseGo_ne_nil {l : List Char} (h : l ≠ []) :
    collapseGo false l ≠ [] := by
  cases l with
  | nil => exact absurd rfl h
  | cons a l =>
    rw [collapseGo]
    split
    · simp
    · simp

theorem collapseGo_true_eq_nil {l : List Char}
    (h : collapseGo true l = []) : ∀ c ∈ l, c.isWhitespace = true := by
  induction l with
  | nil => intro c hc; simp at hc
  | cons a l ih =>
    rw [collapseGo] at h
    split at h
    · next hws =>
      intro c hc
      rcases List.mem_cons.mp hc with he | ht
      · subst he; exact hws
      · exact ih h c ht
    · simp at h

theorem mem_of_getLast_eq {l : List Char} {c : Char} (h : l.getLast? = some c) :
    c ∈ l := by
  rcases List.mem_getLast?_eq_getLast (Option.mem_def.mpr h) with ⟨hne, hc⟩
  rw [hc]
  exact List.getLast_mem hne

theorem getLast_cons_of_ne_nil {a : Char} {l : List Char} (h : l ≠ []) :
    (a :: l).getLast? = l.getLast? := by
  cases l with
  | nil => exact absurd rfl h
  | cons b m => rw [List.getLast?_cons_cons]

theorem collapseGo_getLast {b : Bool} {l : List Char}
    (h : ∀ c, l.getLast? = some c → c.isWhitespace = false) :
    ∀ c, (collapseGo b l).getLast? = some c → c.isWhitespace = false := by
  induction l generalizing b with
  | nil => intro c hc; simp [collapseGo] at hc
  | cons a l ih =>
    intro c hc
    by_cases hlne : l = []
    · subst hlne
      have ha : a.isWhitespace = false := h a rfl
      rw [collapseGo, if_neg (by simp [ha])] at hc
      simp only [collapseGo, List.getLast?_singleton, Option.some.injEq] at hc
      subst hc
      exact ha
    · have htail : ∀ c, l.getLast? = some c → c.isWhitespace = false := by
        intro d hd
        exact h d (by rw [getLast_cons_of_ne_nil hlne]; exact hd)
      rw [collapseGo] at hc
      split at hc
      · split at hc
        · exact ih htail c hc
        · by_cases hY : collapseGo true l = []
          · exfalso
            have hall := collapseGo_true_eq_nil hY
            rcases hg : l.getLast? with _ | w
            · rw [List.getLast?_eq_none_iff] at hg
              exact hlne hg
            · have hw := htail w hg
              have : w.isWhitespace = true := hall w (mem_of_getLast_eq hg)
              rw [hw] at this
              cases this
          · rw [getLast_cons_of_ne_nil hY] at hc
            exact ih htail c hc
      · have hX : collapseGo false l ≠ [] := collapseGo_ne_nil hlne
        rw [getLast_cons_of_ne_nil hX] at hc
        exact ih htail c hc

theorem collapseWs_noEdgeWs {l : List Char} (h : noEdgeWs l) :
    noEdgeWs (collapseWs l) := by
  constructor
  · intro c hc
    cases l with
    | nil => simp [collapseWs, collapseGo] at hc
    | cons a m =>
      have ha : a.isWhitespace = false := h.1 a rfl
      rw [collapseWs, collapseGo, if_neg (by simp [ha])] at hc
      simp only [List.head?_cons, Option.some.injEq] at hc
      subst hc
      exact ha
  · exact collapseGo_getLast h.2

/-! Preservation of the canonical-form predicates by `capitalize`. -/

theorem pyUpper_space : pyUpper ' ' = ' ' := by decide

theorem pyLower_space : pyLower ' ' = ' ' := by decide

theorem capitalize_noColon {l : List Char} (h : noColon l) :
    noColon (capitalize l) := by
  cases l with
  | nil => intro c hc; simp [capitalize] at hc
  | cons a m =>
    intro c hc
    rw [capitalize] at hc
    rcases List.mem_cons.mp hc with he | ht
    · subst he
      exact pyUpper_ne_colon (h a (List.mem_cons_self a m))
    · rcases List.mem_map.mp ht with ⟨d, hd, he⟩
      subst he
      exact pyLower_ne_colon (h d (List.mem_cons_of_mem a hd))

theorem capitalize_wsSingle {l : List Char} (h : wsSingle l) :
    wsSingle (capitalize l) := by
  cases l with
  | nil => exact ⟨fun c hc => by simp [capitalize] at hc, by simp [capitalize]⟩
  | cons a m =>
    constructor
    · intro c hc hw
      rw [capitalize] at hc
      rcases List.mem_cons.mp hc with he | ht
      · subst he
        rw [pyUpper_isWhitespace] at hw
        rw [h.1 a (List.mem_cons_self a m) hw]
        exact pyUpper_space
      · rcases List.mem_map.mp ht with ⟨d, hd, he⟩
        subst he
        rw [pyLower_isWhitespace] at hw
        rw [h.1 d (List.mem_cons_of_mem a hd) hw]
        exact pyLower_space
    · rw [capitalize, List.chain'_cons']
      constructor
      · intro d hd
        rw [List.head?_map] at hd
        rcases hm : m.head? with _ | x
        · rw [hm] at hd; cases hd
        · rw [hm] at hd
          have hd' : pyLower x = d := by simpa using hd
          subst hd'
          have := (List.chain'_cons'.mp h.2).1 x (Option.mem_def.mpr hm)
          rcases this with hx | hx
          · exact Or.inl (by rw [pyUpper_isWhitespace]; exact hx)
          · exact Or.inr (by rw [pyLower_isWhitespace]; exact hx)
      · rw [List.chain'_map]
        apply List.Chain'.imp _ ((List.chain'_cons'.mp h.2).2)
        intro x y hxy
        rcases hxy with hx | hx
        · exact Or.inl (by rw [pyLower_isWhitespace]; exact hx)
        · exact Or.inr (by rw [pyLower_isWhitespace]; exact hx)

theorem capitalize_noEdgeWs {l : List Char} (h : noEdgeWs l) :
    noEdgeWs (capitalize l) := by
  cases l with
  | nil => exact ⟨fun c hc => by simp [capitalize] at hc,
      fun c hc => by simp [capitalize] at hc⟩
  | cons a m =>
    constructor
    · intro c hc
      rw [capitalize] at hc
      simp only [List.head?_cons, Option.some.injEq] at hc
      subst hc
      rw [pyUpper_isWhitespace]
      exact h.1 a rfl
    · intro c hc
      rw [capitalize] at hc
      by_cases hmne : m = []
      · subst hmne
        simp only [List.map_nil, List.getLast?_singleton, Option.some.injEq] at hc
        subst hc
        rw [pyUpper_isWhitespace]
        exact h.2 a rfl
      · rw [getLast_cons_of_ne_nil (by simp [hmne])] at hc
        rw [List.getLast?_map] at hc
        rcases hg : m.getLast? with _ | w
        · rw [hg] at hc; cases hc
        · rw [hg] at hc
          have hc' : pyLower w = c := by simpa using hc
          subst hc'
          rw [pyLower_isWhitespace]
          exact h.2 w (by rw [getLast_cons_of_ne_nil hmne]; exact hg)

theorem capitalize_capitalize (l : List Char) :
    capitalize (capitalize l) = capitalize l := by
  cases l with
  | nil => rfl
  | cons a m =>
    rw [capitalize, capitalize, List.map_map, pyUpper_pyUpper]
    congr 1
    apply List.map_congr_left
    intro x _
    exact pyLower_pyLower x

/-! Preservation through `replaceColon`, and the canonical form of
`normChars` output. -/

theorem replaceColon_noColon (l : List Char) : noColon (replaceColon l) := by
  intro c hc
  rcases List.mem_map.mp hc with ⟨d, _, he⟩
  subst he
  by_cases hd : d = ':'
  · rw [if_pos hd]; decide
  · rw [if_neg hd]; exact hd

theorem collapseWs_noColon {l : List Char} (h : noColon l) :
    noColon (collapseWs l) := by
  intro c hc
  rcases collapseGo_mem hc with ⟨hm, _⟩ | hsp
  · exact h c hm
  · subst hsp; decide

theorem replaceChar_isWhitespace (c : Char) :
    (if c = ':' then '_' else c).isWhitespace = c.isWhitespace := by
  by_cases hc : c = ':'
  · rw [if_pos hc, hc]; decide
  · rw [if_neg hc]

theorem replaceColon_noEdgeWs {l : List Char} (h : noEdgeWs l) :
    noEdgeWs (replaceColon l) := by
  constructor
  · intro c hc
    rw [replaceColon, List.head?_map] at hc
    rcases hm : l.head? with _ | x
    · rw [hm] at hc; cases hc
    · rw [hm] at hc
      have hc' : (if x = ':' then '_' else x) = c := by simpa using hc
      subst hc'
      rw [replaceChar_isWhitespace]
      exact h.1 x hm
  · intro c hc
    rw [replaceColon, List.getLast?_map] at hc
    rcases hm : l.getLast? with _ | x
    · rw [hm] at hc; cases hc
    · rw [hm] at hc
      have hc' : (if x = ':' then '_' else x) = c := by simpa using hc
      subst hc'
      rw [replaceChar_isWhitespace]
      exact h.2 x hm

theorem replaceColon_eq_self {l : List Char} (h : noColon l) :
    replaceColon l = l := by
  rw [replaceColon]
  have : ∀ c ∈ l, (if c = ':' then '_' else c) = c := by
    intro c hc
    rw [if_neg (h c hc)]
  rw [List.map_congr_left this, List.map_id']

theorem noEdgeWs_stripName (l : List Char) : noEdgeWs (stripName l) := by
  rw [stripName]
  split
  · exact noEdgeWs_pyStrip _
  · exact noEdgeWs_pyStrip _

theorem stripName_eq_self {l : List Char} (hne : noEdgeWs l) (hnc : noColon l) :
    stripName l = l := by
  rw [stripName, pyStrip_eq_self hne, if_neg]
  intro hlast
  exact hnc ':' (mem_of_getLast_eq hlast) rfl

theorem normChars_wsSingle (l : List Char) : wsSingle (normChars l) :=
  capitalize_wsSingle (collapseWs_wsSingle _)

theorem normChars_noColon (l : List Char) : noColon (normChars l) :=
  capitalize_noColon (collapseWs_noColon (replaceColon_noColon _))

theorem normChars_noEdgeWs (l : List Char) : noEdgeWs (normChars l) :=
  capitalize_noEdgeWs (collapseWs_noEdgeWs (replaceColon_noEdgeWs
    (noEdgeWs_stripName l)))

theorem normChars_idem (l : List Char) :
    normChars (normChars l) = normChars l := by
  have hnc := normChars_noColon l
  have hne := normChars_noEdgeWs l
  have hws := normChars_wsSingle l
  show capitalize (collapseWs (replaceColon (stripName (normChars l)))) =
    normChars l
  rw [stripName_eq_self hne hnc, replaceColon_eq_self hnc,
    collapseWs_eq_self hws]
  show capitalize (capitalize (collapseWs (replaceColon (stripName l)))) =
    normChars l
  rw [capitalize_capitalize]
  rfl

/-- C7: field-name normalization is idempotent: normalizing an
already-normalized name returns it unchanged. -/
theorem normalize_field_name_idempotent (s : String) :
    normalize_field_name (normalize_field_name s) = normalize_field_name s := by
  show String.mk (normChars (String.mk (normChars s.data)).data) =
    String.mk (normChars s.data)
  rw [show (String.mk (normChars s.data)).data = normChars s.data from rfl,
    normChars_idem]

/-- C10: every character after the first in the output of
`normalize_field_name` is lower-cased (Python `str.capitalize` semantics),
so raw field names that differ only in letter case — "pubDate", "PubDate",
"PUBDATE" — all normalize to the canonical name "Pubdate" and are merged
into a single column. -/
theorem normalize_tail_lowercased :
    (∀ s : String, ∀ c ∈ (normalize_field_name s).data.tail, pyLower c = c)
    ∧ normalize_field_name "pubDate" = "Pubdate"
    ∧ normalize_field_name "PubDate" = "Pubdate"
    ∧ normalize_field_name "PUBDATE" = "Pubdate" := by
  refine ⟨?_, by decide, by decide, by decide⟩
  intro s c hc
  have hdata : (normalize_field_name s).data = normChars s.data := rfl
  rw [hdata, normChars] at hc
  rcases hw : collapseWs (replaceColon (stripName s.data)) with _ | ⟨a, m⟩
  · rw [hw] at hc
    simp [capitalize] at hc
  · rw [hw] at hc
    simp only [capitalize, List.tail_cons] at hc
    rcases List.mem_map.mp hc with ⟨d, _, he⟩
    subst he
    exact pyLower_pyLower d

theorem normalize_tail_lowercased_witness :
    'b' ∈ (normalize_field_name "AB").data.tail ∧ pyLower 'b' = 'b' :=
  ⟨by decide, normalize_tail_lowercased.1 "AB" 'b' (by decide)⟩

/-! ### Sparse last-row locator (`find_last_filled_row_in_column`,
collector.py lines 291-340)

The sheet column is modelled by `filled : Int → Bool`: `filled i` is true iff
`sheet.get` on row `i` succeeds and the cell is non-empty after `strip`; a
read failure counts as empty, exactly as the `except` branches treat it. -/

/-- Step 1 of the locator: exponential growth `1, 2, 4, 8, …` while the
probed cell is non-empty, tracking `low` (last known-filled probe) and
doubling `high`, capped by `max_rows_limit`. -/
def expProbe (filled : Int → Bool) (limit : Int) (low high : Int)
    (hpos : 0 < high) : Int × Int :=
  if h : high ≤ limit then
    if filled high then expProbe filled limit high (high * 2) (by omega)
    else (low, high)
  else (low, high)
termination_by (limit + 1 - high).toNat
decreasing_by omega

theorem mid_bounds {low high : Int} (h : low ≤ high) :
    low ≤ (low + high) / 2 ∧ (low + high) / 2 ≤ high := by
  constructor
  · rw [Int.le_ediv_iff_mul_le (by decide : (0:Int) < 2)]
    omega
  · have h1 : (low + high) / 2 ≤ (high * 2) / 2 :=
      Int.ediv_le_ediv (by decide) (by omega)
    rwa [Int.mul_ediv_cancel _ (by decide)] at h1

/-- Step 2 of the locator: binary search between `low` and `high`, keeping
the largest index seen filled in `last` (Python's `last_filled`). -/
def binSearch (filled : Int → Bool) (low high last : Int) : Int :=
  if h : low ≤ high then
    if filled ((low + high) / 2) then
      binSearch filled ((low + high) / 2 + 1) high ((low + high) / 2)
    else binSearch filled low ((low + high) / 2 - 1) last
  else last
termination_by (high + 1 - low).toNat
decreasing_by
  · have := mid_bounds h
    omega
  · have := mid_bounds h
    omega

def find_last_filled_row_in_column (filled : Int → Bool)
    (max_rows_limit : Int) : Int :=
  let p := expProbe filled max_rows_limit 1 1 (by decide)
  let last_filled := binSearch filled p.1 (min p.2 max_rows_limit) 0
  if last_filled ≥ 2 then last_filled else 0

theorem expProbe_brackets (filled : Int → Bool) (k limit : Int)
    (hfill : ∀ i : Int, filled i = true ↔ (1 ≤ i ∧ i ≤ k))
    (low high : Int) (hpos : 0 < high) (hlow1 : 1 ≤ low) (hlowk : low ≤ k) :
    1 ≤ (expProbe filled limit low high hpos).1 ∧
      (expProbe filled limit low high hpos).1 ≤ k ∧
      (k < (expProbe filled limit low high hpos).2 ∨
        limit < (expProbe filled limit low high hpos).2) := by
  induction low, high, hpos using expProbe.induct filled limit with
  | case1 low high hpos hle hf ih =>
    rw [expProbe, dif_pos hle, if_pos hf]
    have hk := (hfill high).mp hf
    exact ih hpos hk.2
  | case2 low high hpos hle hf =>
    rw [expProbe, dif_pos hle, if_neg hf]
    have hhk : ¬ (1 ≤ high ∧ high ≤ k) := fun hx => hf ((hfill high).mpr hx)
    exact ⟨hlow1, hlowk, Or.inl (by omega)⟩
  | case3 low high hpos hgt =>
    rw [expProbe, dif_neg hgt]
    exact ⟨hlow1, hlowk, Or.inr (by omega)⟩

theorem binSearch_locates {filled : Int → Bool} {k : Int}
    (hfill : ∀ i : Int, filled i = true ↔ (1 ≤ i ∧ i ≤ k))
    (low high last : Int) (h1 : 1 ≤ low) (h2 : low ≤ k + 1) (h3 : k ≤ high)
    (h4 : low ≤ k ∨ last = k) :
    binSearch filled low high last = k := by
  induction low, high, last using binSearch.induct filled with
  | case1 low high last hle hf ih =>
    rw [binSearch, dif_pos hle, if_pos hf]
    have hm := mid_bounds hle
    have hmk := (hfill _).mp hf
    apply ih
    · omega
    · omega
    · omega
    · omega
  | case2 low high last hle hf ih =>
    rw [binSearch, dif_pos hle, if_neg hf]
    have hm := mid_bounds hle
    have hmk : ¬ (1 ≤ (low + high) / 2 ∧ (low + high) / 2 ≤ k) :=
      fun hx => hf ((hfill _).mpr hx)
    apply ih
    · omega
    · omega
    · omega
    · omega
  | case3 low high last hgt =>
    rw [binSearch, dif_neg hgt]
    omega

theorem binSearch_no_data {filled : Int → Bool}
    (hfill : ∀ i : Int, 2 ≤ i → filled i = false)
    (low high last : Int) (hlast : last ≤ 1) :
    binSearch filled low high last ≤ 1 := by
  induction low, high, last using binSearch.induct filled with
  | case1 low high last hle hf ih =>
    rw [binSearch, dif_pos hle, if_pos hf]
    apply ih
    by_contra hx
    rw [hfill _ (by omega)] at hf
    cases hf
  | case2 low high last hle hf ih =>
    rw [binSearch, dif_pos hle, if_neg hf]
    exact ih hlast
  | case3 low high last hgt =>
    rw [binSearch, dif_neg hgt]
    exact hlast

/-- C2: if the header row 1 and data rows 2..k are non-empty and every row
above k is empty or unreadable (2 ≤ k ≤ the max-rows limit), the locator
returns exactly k, with no dependence on any allocated store size; and if no
row of index ≥ 2 is non-empty, it returns 0 — row 1 is never returned. -/
theorem find_last_filled_row_spec :
    (∀ (filled : Int → Bool) (k limit : Int),
        2 ≤ k → k ≤ limit →
        (∀ i : Int, filled i = true ↔ (1 ≤ i ∧ i ≤ k)) →
        find_last_filled_row_in_column filled limit = k)
    ∧ (∀ (filled : Int → Bool) (limit : Int),
        (∀ i : Int, 2 ≤ i → filled i = false) →
        find_last_filled_row_in_column filled limit = 0) := by
  constructor
  · intro filled k limit hk hkl hfill
    have hp := expProbe_brackets filled k limit hfill 1 1 (by decide) (by omega)
      (by omega)
    simp only [find_last_filled_row_in_column]
    rw [binSearch_locates hfill _ _ _ (by omega) (by omega) (by omega)
      (by omega)]
    split
    · rfl
    · omega
  · intro filled limit hfill
    simp only [find_last_filled_row_in_column]
    have hb := binSearch_no_data hfill
      (expProbe filled limit 1 1 (by decide)).1
      (min (expProbe filled limit 1 1 (by decide)).2 limit) 0 (by omega)
    split
    · omega
    · rfl

theorem find_last_filled_row_spec_witness :
    (2:Int) ≤ 50 ∧ (50:Int) ≤ 100000 ∧
      find_last_filled_row_in_column
        (fun i => decide (1 ≤ i ∧ i ≤ 50)) 100000 = 50 :=
  ⟨by decide, by decide,
    find_last_filled_row_spec.1 (fun i => decide (1 ≤ i ∧ i ≤ 50)) 50 100000
      (by decide) (by decide) (fun i => by simp)⟩

/-! ### Per-cell size validation (`validate_and_truncate_row`,
collector.py lines 39-57). The Python loop appends `""` for an oversized
cell (after printing a diagnostic) and the original value otherwise; the
`headers`/`lot_id` parameters feed only the printed diagnostic. -/

def MAX_CELL_CHARS : Nat := 50000

def validate_and_truncate_row (row : List String) : List String :=
  row.map (fun cell => if cell.length > MAX_CELL_CHARS then "" else cell)

/-- C9: validation replaces exactly the cells longer than the 50000-character
limit by the empty string, keeps every other cell unchanged, and preserves
the row length; it is a total function — no input aborts the run. -/
theorem validate_and_truncate_row_spec (row : List String) :
    (validate_and_truncate_row row).length = row.length ∧
      ∀ i : Nat, (validate_and_truncate_row row).getD i "" =
        if (row.getD i "").length > MAX_CELL_CHARS then ""
        else row.getD i "" := by
  constructor
  · exact List.length_map row _
  · intro i
    induction row generalizing i with
    | nil =>
      simp [validate_and_truncate_row, MAX_CELL_CHARS]
    | cons a l ih =>
      cases i with
      | zero => simp [validate_and_truncate_row]
      | succ j => simpa [validate_and_truncate_row] using ih j

/-! ### Python dicts

A Python dict with string keys, as the collector uses them: an
insertion-ordered association list. Assignment replaces the value in place
when the key is present and appends otherwise; `update` assigns every pair
of the other dict in order. -/

def dictSet (d : List (String × String)) (k v : String) :
    List (String × String) :=
  match d with
  | [] => [(k, v)]
  | (k', v') :: rest =>
    if k' = k then (k', v) :: rest else (k', v') :: dictSet rest k v

def dictGet? (d : List (String × String)) (k : String) : Option String :=
  match d with
  | [] => none
  | (k', v') :: rest => if k' = k then some v' else dictGet? rest k

def dictUpdate (d other : List (String × String)) : List (String × String) :=
  other.foldl (fun acc kv => dictSet acc kv.1 kv.2) d

theorem dictGet_dictSet (d : List (String × String)) (k v k' : String) :
    dictGet? (dictSet d k v) k' =
      if k = k' then some v else dictGet? d k' := by
  induction d with
  | nil =>
    show (if k = k' then some v else dictGet? [] k') =
      if k = k' then some v else none
    rfl
  | cons p rest ih =>
    obtain ⟨a, b⟩ := p
    show dictGet?
        (if a = k then (a, v) :: rest else (a, b) :: dictSet rest k v) k' =
      if k = k' then some v else if a = k' then some b else dictGet? rest k'
    by_cases hak : a = k
    · rw [if_pos hak]
      show (if a = k' then some v else dictGet? rest k') = _
      subst hak
      by_cases hk' : a = k'
      · rw [if_pos hk', if_pos hk']
      · rw [if_neg hk', if_neg hk', if_neg hk']
    · rw [if_neg hak]
      show (if a = k' then some b else dictGet? (dictSet rest k v) k') = _
      rw [ih]
      by_cases hak' : a = k'
      · have hkk : ¬ k = k' := fun hkk => hak (by rw [hkk, hak'])
        rw [if_pos hak', if_pos hak', if_neg hkk]
      · rw [if_neg hak', if_neg hak']

/-! ### Description parsing (`parse_description_fields` and helpers,
collector.py lines 111-142) -/

/-- Model of Python `html.unescape` for the five standard entities, the only
escapes the feed's markup uses; recognizes one entity at the head. -/
def entAt (l : List Char) : Option (Char × List Char) :=
  if l.take 5 = ['&', 'a', 'm', 'p', ';'] then some ('&', l.drop 5)
  else if l.take 4 = ['&', 'l', 't', ';'] then some ('<', l.drop 4)
  else if l.take 4 = ['&', 'g', 't', ';'] then some ('>', l.drop 4)
  else if l.take 6 = ['&', 'q', 'u', 'o', 't', ';'] then some ('"', l.drop 6)
  else if l.take 5 = ['&', '#', '3', '9', ';'] then some ('\'', l.drop 5)
  else none

def unescapeGo : Nat → List Char → List Char
  | _, [] => []
  | 0, l => l
  | fuel + 1, c :: cs =>
    match entAt (c :: cs) with
    | some (d, rest) => d :: unescapeGo fuel rest
    | none => c :: unescapeGo fuel cs

def unescapeChars (l : List Char) : List Char := unescapeGo l.length l

/-- Recognize `<[^>]+>` at the head: the body scanner runs to the first
`>`. -/
def tagClose : List Char → Option (List Char)
  | [] => none
  | c :: rest => if c = '>' then some rest else tagClose rest

def tagAt : List Char → Option (List Char)
  | '<' :: c :: rest => if c = '>' then none else tagClose rest
  | _ => none

def stripTagsGo : Nat → List Char → List Char
  | _, [] => []
  | 0, l => l
  | fuel + 1, c :: cs =>
    match tagAt (c :: cs) with
    | some rest => stripTagsGo fuel rest
    | none => c :: stripTagsGo fuel cs

/-- `re.sub(r'<[^>]+>', '', text)`: drop every tag, scanning left to
right. -/
def stripTags (l : List Char) : List Char := stripTagsGo l.length l

/-- `clean_html_tags`: strip tags, unescape, strip whitespace. -/
def clean_html_tags (l : List Char) : List Char :=
  pyStrip (unescapeChars (stripTags l))

/-- Recognize the `<br\s*/?>` delimiter of `re.split` at the head
(case-insensitive on `br`). -/
def brTail (l : List Char) : Option (List Char) :=
  match l.dropWhile Char.isWhitespace with
  | '/' :: '>' :: rest => some rest
  | '>' :: rest => some rest
  | _ => none

def brAt : List Char → Option (List Char)
  | '<' :: b :: r :: rest =>
    if (b = 'b' ∨ b = 'B') ∧ (r = 'r' ∨ r = 'R') then brTail rest else none
  | _ => none

def splitBrGo : Nat → List Char → List (List Char)
  | _, [] => [[]]
  | 0, l => [l]
  | fuel + 1, c :: cs =>
    match brAt (c :: cs) with
    | some rest => [] :: splitBrGo fuel rest
    | none =>
      match splitBrGo fuel cs with
      | [] => [[c]]
      | p :: ps => (c :: p) :: ps

/-- `re.split(r'<br\s*/?>', text, flags=re.IGNORECASE)`. -/
def splitBr (l : List Char) : List (List Char) := splitBrGo l.length l

/-- The cleaned candidate lines of one description block: split on `<br>`
markers, then tag-strip, unescape and trim each part. -/
def descLines (l : List Char) : List (List Char) :=
  (splitBr (unescapeChars l)).map (fun part => pyStrip (clean_html_tags part))

def parse_description_fields (description_html : String) :
    List (String × String) :=
  if description_html.data = [] then []
  else
    (descLines description_html.data).foldl
      (fun fields clean_part =>
        if clean_part = [] ∨ ¬ clean_part.contains ':' then fields
        else
          let key_norm := String.mk (normChars (clean_part.takeWhile (· != ':')))
          let value_clean :=
            String.mk (pyStrip ((clean_part.dropWhile (· != ':')).tail))
          if key_norm ≠ "" ∧ value_clean ≠ "" then
            dictSet fields key_norm value_clean
          else fields)
      []

/-- The decision the parser's loop body takes for one cleaned line, as the
amended specification describes it: the line is kept iff it has a colon, a
non-empty normalized key and a non-empty trimmed value. -/
def keptLine (clean_part : List Char) : Option (String × String) :=
  if clean_part = [] ∨ ¬ clean_part.contains ':' then none
  else
    let key_norm := String.mk (normChars (clean_part.takeWhile (· != ':')))
    let value_clean :=
      String.mk (pyStrip ((clean_part.dropWhile (· != ':')).tail))
    if key_norm ≠ "" ∧ value_clean ≠ "" then some (key_norm, value_clean)
    else none

/-- The key/value pairs the parser keeps from one block, in line order. -/
def keptPairs (l : List Char) : List (String × String) :=
  (descLines l).filterMap keptLine

theorem parse_foldl_eq_filterMap (parts : List (List Char))
    (init : List (String × String)) :
    parts.foldl
      (fun fields clean_part =>
        if clean_part = [] ∨ ¬ clean_part.contains ':' then fields
        else
          let key_norm :=
            String.mk (normChars (clean_part.takeWhile (· != ':')))
          let value_clean :=
            String.mk (pyStrip ((clean_part.dropWhile (· != ':')).tail))
          if key_norm ≠ "" ∧ value_clean ≠ "" then
            dictSet fields key_norm value_clean
          else fields)
      init =
    (parts.filterMap keptLine).foldl
      (fun d kv => dictSet d kv.1 kv.2) init := by
  induction parts generalizing init with
  | nil => rfl
  | cons p ps ih =>
    rw [List.foldl_cons, List.filterMap_cons]
    have hbody : ∀ d : List (String × String),
        (if p = [] ∨ ¬ p.contains ':' then d
         else
          if String.mk (normChars (p.takeWhile (· != ':'))) ≠ "" ∧
              String.mk (pyStrip ((p.dropWhile (· != ':')).tail)) ≠ "" then
            dictSet d (String.mk (normChars (p.takeWhile (· != ':'))))
              (String.mk (pyStrip ((p.dropWhile (· != ':')).tail)))
          else d) =
        match keptLine p with
        | some kv => dictSet d kv.1 kv.2
        | none => d := by
      intro d
      simp only [keptLine]
      split
      · rfl
      · split
        · rfl
        · rfl
    rw [hbody init]
    cases hk : keptLine p with
    | none => exact ih init
    | some kv =>
      rw [List.foldl_cons]
      exact ih _

theorem foldl_dictSet_lookup (pairs : List (String × String))
    (d : List (String × String)) (k : String) :
    dictGet? (pairs.foldl (fun d kv => dictSet d kv.1 kv.2) d) k =
      match pairs.reverse.find? (fun kv => kv.1 == k) with
      | some kv => some kv.2
      | none => dictGet? d k := by
  induction pairs generalizing d with
  | nil => rfl
  | cons p ps ih =>
    rw [List.foldl_cons, ih, List.reverse_cons, List.find?_append]
    cases hf : ps.reverse.find? (fun kv => kv.1 == k) with
    | some kv => rfl
    | none =>
      show (dictGet? (dictSet d p.1 p.2) k) =
        match [p].find? (fun kv => kv.1 == k) with
        | some kv => some kv.2
        | none => dictGet? d k
      rw [dictGet_dictSet]
      rw [List.find?_cons]
      by_cases hpk : p.1 = k
      · rw [if_pos hpk]
        have : (p.1 == k) = true := beq_iff_eq.mpr hpk
        rw [this]
      · rw [if_neg hpk]
        have : (p.1 == k) = false := beq_eq_false_iff_ne.mpr hpk
        rw [this]
        rfl

theorem parse_eq_keptPairs_fold (s : String) :
    parse_description_fields s =
      (keptPairs s.data).foldl (fun d kv => dictSet d kv.1 kv.2) [] := by
  rw [parse_description_fields]
  by_cases hs : s.data = []
  · rw [if_pos hs, hs]
    rfl
  · rw [if_neg hs, keptPairs]
    exact parse_foldl_eq_filterMap (descLines s.data) []

/-- C6 is false as stated: in the block `"Key:"` the single cleaned line is
`"Key:"`; it contains a colon and its key normalizes to the non-empty name
`"Key"`, so per the claim it should contribute its key, but the code also
requires a non-empty value and produces the empty mapping. -/
theorem parse_description_fields_counterexample :
    descLines ("Key:".data) = ["Key:".data]
    ∧ ("Key:".data).contains ':' = true
    ∧ String.mk (normChars (("Key:".data).takeWhile (· != ':'))) = "Key"
    ∧ parse_description_fields "Key:" = [] := by
  refine ⟨by decide, by decide, by decide, by decide⟩

/-- C6 (amended): the parser splits the block on `<br>` markers, splits each
line at its first colon, and discards exactly the lines with no colon, an
empty normalized key, or an empty trimmed value; among the kept lines a
later duplicate key overwrites an earlier one (last-write-wins), and every
kept line contributes its key to the mapping. -/
theorem parse_description_fields_amended :
    (∀ (s : String) (k : String),
        dictGet? (parse_description_fields s) k =
          match (keptPairs s.data).reverse.find? (fun kv => kv.1 == k) with
          | some kv => some kv.2
          | none => none)
    ∧ ∀ (s : String), ∀ p ∈ keptPairs s.data,
        (dictGet? (parse_description_fields s) p.1).isSome = true := by
  have hmain : ∀ (s : String) (k : String),
      dictGet? (parse_description_fields s) k =
        match (keptPairs s.data).reverse.find? (fun kv => kv.1 == k) with
        | some kv => some kv.2
        | none => none := by
    intro s k
    rw [parse_eq_keptPairs_fold, foldl_dictSet_lookup]
    rfl
  refine ⟨hmain, ?_⟩
  intro s p hp
  rw [hmain s p.1]
  have hsome : ((keptPairs s.data).reverse.find?
      (fun kv => kv.1 == p.1)).isSome := by
    rw [List.find?_isSome]
    exact ⟨p, List.mem_reverse.mpr hp, beq_iff_eq.mpr rfl⟩
  cases hf : (keptPairs s.data).reverse.find? (fun kv => kv.1 == p.1) with
  | none => rw [hf] at hsome; cases hsome
  | some kv => rfl

theorem parse_description_fields_amended_witness :
    ("Площадь", "500") ∈ keptPairs
        ("Кадастровый номер: 77:01:0001:1<br>Площадь: 500".data)
    ∧ (dictGet? (parse_description_fields
        "Кадастровый номер: 77:01:0001:1<br>Площадь: 500")
        "Площадь").isSome = true :=
  ⟨by decide,
    parse_description_fields_amended.2
      "Кадастровый номер: 77:01:0001:1<br>Площадь: 500"
      ("Площадь", "500") (by decide)⟩

/-! ### Row materialization (`build_row_for_sheet`, collector.py lines
268-289). Item-field values are strings (the `isinstance(value, str)`
guard passes for every field the model carries), so `str(value)` is the
value itself. -/

/-- `{name: i for i, name in enumerate(headers)}`: a later duplicate header
name overwrites an earlier one. -/
def headerIndexGo (name : String) : Nat → List String →
    Option Nat → Option Nat
  | _, [], acc => acc
  | i, h :: t, acc =>
    headerIndexGo name (i + 1) t (if h = name then some i else acc)

def headerIndex (headers : List String) (name : String) : Option Nat :=
  headerIndexGo name 0 headers none

/-- The merged `row_dict`: normalized item fields, then
`row_dict.update(desc_fields)` (later assignment wins), then the three
explicitly assigned special columns. -/
def mergedDict (item_fields desc_fields : List (String × String))
    (cadastral_number nspd_data nspd_error : String) :
    List (String × String) :=
  dictSet
    (dictSet
      (dictSet
        (dictUpdate
          (item_fields.foldl
            (fun d kv => dictSet d (normalize_field_name kv.1) kv.2) [])
          desc_fields)
        "Кадастровый номер" cadastral_number)
      "Nspd_data" nspd_data)
    "Nspd_error" nspd_error

def build_row_for_sheet (item_fields desc_fields : List (String × String))
    (headers : List String)
    (cadastral_number nspd_data nspd_error : String) : List String :=
  let step := (mergedDict item_fields desc_fields cadastral_number nspd_data
      nspd_error).foldl
    (fun (acc : List String × List String) kv =>
      match headerIndex headers kv.1 with
      | some i => (acc.1.set i kv.2, acc.2)
      | none => (acc.1, acc.2 ++ [kv.1 ++ ": " ++ kv.2]))
    (List.replicate headers.length "", [])
  match headerIndex headers "Unsorted" with
  | some i => step.1.set i (String.intercalate "\n" step.2)
  | none => step.1

theorem headerIndexGo_bound (name : String) (t : List String) :
    ∀ (i : Nat) (acc : Option Nat), (∀ j, acc = some j → j < i) →
      ∀ j, headerIndexGo name i t acc = some j → j < i + t.length := by
  induction t with
  | nil =>
    intro i acc hacc j hj
    rw [headerIndexGo] at hj
    have := hacc j hj
    omega
  | cons h t ih =>
    intro i acc hacc j hj
    rw [headerIndexGo] at hj
    have hacc' : ∀ j, (if h = name then some i else acc) = some j → j < i + 1 := by
      intro j hj'
      split at hj'
      · cases hj'
        omega
      · have := hacc j hj'
        omega
    have := ih (i + 1) _ hacc' j hj
    simp only [List.length_cons]
    omega

theorem headerIndexGo_isSome_acc (name : String) (t : List String) :
    ∀ (i : Nat) (acc : Option Nat), acc.isSome →
      (headerIndexGo name i t acc).isSome := by
  induction t with
  | nil =>
    intro i acc hacc
    rw [headerIndexGo]
    exact hacc
  | cons h t ih =>
    intro i acc hacc
    rw [headerIndexGo]
    apply ih
    split
    · rfl
    · exact hacc

theorem headerIndex_isSome_of_mem {headers : List String} {name : String}
    (hmem : name ∈ headers) : (headerIndex headers name).isSome := by
  rw [headerIndex]
  suffices h : ∀ (i : Nat) (acc : Option Nat), name ∈ headers →
      (headerIndexGo name i headers acc).isSome by
    exact h 0 none hmem
  clear hmem
  induction headers with
  | nil =>
    intro i acc hmem
    cases hmem
  | cons h t ih =>
    intro i acc hmem
    rw [headerIndexGo]
    rcases List.mem_cons.mp hmem with he | ht
    · subst he
      apply headerIndexGo_isSome_acc
      rw [if_pos rfl]
      rfl
    · exact ih (i + 1) _ ht

theorem headerIndex_lt {headers : List String} {name : String} {i : Nat}
    (h : headerIndex headers name = some i) : i < headers.length := by
  have := headerIndexGo_bound name headers 0 none
    (fun j hj => by cases hj) i h
  omega

theorem build_step_length (headers : List String)
    (d : List (String × String)) :
    ∀ (r : List String) (u : List String),
      (d.foldl
        (fun (acc : List String × List String) kv =>
          match headerIndex headers kv.1 with
          | some i => (acc.1.set i kv.2, acc.2)
          | none => (acc.1, acc.2 ++ [kv.1 ++ ": " ++ kv.2]))
        (r, u)).1.length = r.length := by
  induction d with
  | nil => intro r u; rfl
  | cons kv d ih =>
    intro r u
    rw [List.foldl_cons]
    cases hh : headerIndex headers kv.1 with
    | some i =>
      simp only [hh]
      rw [ih]
      exact List.length_set r i kv.2
    | none =>
      simp only [hh]
      exact ih r _

theorem build_step_unsorted (headers : List String)
    (d : List (String × String)) :
    ∀ (r : List String) (u : List String),
      (d.foldl
        (fun (acc : List String × List String) kv =>
          match headerIndex headers kv.1 with
          | some i => (acc.1.set i kv.2, acc.2)
          | none => (acc.1, acc.2 ++ [kv.1 ++ ": " ++ kv.2]))
        (r, u)).2 =
      u ++ (d.filter (fun kv => (headerIndex headers kv.1).isNone)).map
        (fun kv => kv.1 ++ ": " ++ kv.2) := by
  induction d with
  | nil =>
    intro r u
    rw [List.foldl_nil, List.filter_nil, List.map_nil, List.append_nil]
  | cons kv d ih =>
    intro r u
    rw [List.foldl_cons, List.filter_cons]
    cases hh : headerIndex headers kv.1 with
    | some i =>
      simp only [hh, Option.isNone_some, if_neg]
      exact ih _ u
    | none =>
      simp only [hh, Option.isNone_none, if_pos, List.map_cons]
      rw [ih]
      simp

/-- C3: for headers containing the catch-all column "Unsorted", the row
built for the sheet has exactly one cell per header, and the "Unsorted"
cell holds one "name: value" line for every merged field whose canonical
name is not a header, joined by newlines (empty when nothing overflows) —
no unmapped field is dropped. -/
theorem build_row_for_sheet_spec (item_fields desc_fields :
      List (String × String)) (headers : List String)
    (cad nd nerr : String) (hU : "Unsorted" ∈ headers) :
    (build_row_for_sheet item_fields desc_fields headers cad nd nerr).length
      = headers.length
    ∧ ∃ i, headerIndex headers "Unsorted" = some i ∧
        (build_row_for_sheet item_fields desc_fields headers cad nd
          nerr).getD i ""
          = String.intercalate "\n"
            (((mergedDict item_fields desc_fields cad nd nerr).filter
                (fun kv => (headerIndex headers kv.1).isNone)).map
              (fun kv => kv.1 ++ ": " ++ kv.2)) := by
  have hsome := headerIndex_isSome_of_mem hU
  cases hidx : headerIndex headers "Unsorted" with
  | none => rw [hidx] at hsome; cases hsome
  | some i =>
    have hi : i < headers.length := headerIndex_lt hidx
    have hlen := build_step_length headers
      (mergedDict item_fields desc_fields cad nd nerr)
      (List.replicate headers.length "") []
    have huns := build_step_unsorted headers
      (mergedDict item_fields desc_fields cad nd nerr)
      (List.replicate headers.length "") []
    rw [List.length_replicate] at hlen
    constructor
    · rw [build_row_for_sheet]
      simp only [hidx]
      rw [List.length_set]
      exact hlen
    · refine ⟨i, rfl, ?_⟩
      rw [build_row_for_sheet]
      simp only [hidx]
      rw [List.getD_eq_getElem?_getD, List.getElem?_set_self (by rw [hlen]; exact hi)]
      rw [huns, List.nil_append]
      rfl

theorem build_row_for_sheet_spec_witness :
    "Unsorted" ∈ ["Title", "Link", "Unsorted"]
    ∧ ((build_row_for_sheet [("Дополнительное поле", "значение")] []
          ["Title", "Link", "Unsorted"] "" "" "").length = 3
        ∧ ∃ i, headerIndex ["Title", "Link", "Unsorted"] "Unsorted" = some i ∧
            (build_row_for_sheet [("Дополнительное поле", "значение")] []
              ["Title", "Link", "Unsorted"] "" "" "").getD i ""
              = String.intercalate "\n"
                (((mergedDict [("Дополнительное поле", "значение")] [] "" ""
                    "").filter
                    (fun kv => (headerIndex ["Title", "Link", "Unsorted"]
                      kv.1).isNone)).map
                  (fun kv => kv.1 ++ ": " ++ kv.2))) :=
  ⟨by decide,
    build_row_for_sheet_spec [("Дополнительное поле", "значение")] []
      ["Title", "Link", "Unsorted"] "" "" "" (by decide)⟩

/-! ### Cadastral identifiers (`CADASTRAL_PATTERN`, collector.py line 35;
`extract_cadastral_number_from_item`, lines 181-198) -/

/-- Python `str.strip()` on a `String`. -/
def stripStr (s : String) : String := String.mk (pyStrip s.data)

/-- `CADASTRAL_PATTERN.fullmatch`: the whole string is
`\d{2}:\d{2}:\d{4,19}:\d{1,6}`. Under `fullmatch` the surrounding `\b`
anchors are vacuous — they sit between the string edge and a digit. -/
def CADASTRAL_PATTERN_fullmatch (s : String) : Bool :=
  match s.data.splitOn ':' with
  | [g1, g2, g3, g4] =>
    g1.all Char.isDigit && g2.all Char.isDigit && g3.all Char.isDigit &&
      g4.all Char.isDigit && decide (g1.length = 2) &&
      decide (g2.length = 2) && decide (4 ≤ g3.length) &&
      decide (g3.length ≤ 19) && decide (1 ≤ g4.length) &&
      decide (g4.length ≤ 6)
  | _ => false

/-- Python's `\w` (word character) for the text the feed produces: ASCII
alphanumerics, underscore, and everything non-ASCII (Cyrillic letters are
word characters). -/
def wordChar (c : Char) : Bool :=
  c.isAlphanum || c == '_' || decide (128 ≤ c.toNat)

/-- Attempt to match the pattern (with its trailing `\b`) at the head of the
text. The fixed groups `\d{2}` admit no backtracking; the greedy variable
groups must take a whole maximal digit run, since any shorter take leaves a
digit where `:` or a non-word character is required. -/
def matchCadAt (l : List Char) : Option (List Char) :=
  match l with
  | a :: b :: ':' :: c :: d :: ':' :: rest =>
    if a.isDigit && b.isDigit && c.isDigit && d.isDigit then
      let r3 := rest.takeWhile Char.isDigit
      if decide (4 ≤ r3.length) && decide (r3.length ≤ 19) then
        match rest.dropWhile Char.isDigit with
        | ':' :: rest4 =>
          let r4 := rest4.takeWhile Char.isDigit
          if decide (1 ≤ r4.length) && decide (r4.length ≤ 6) &&
              (match (rest4.dropWhile Char.isDigit).head? with
               | none => true
               | some e => !wordChar e) then
            some (a :: b :: ':' :: c :: d :: ':' :: (r3 ++ ':' :: r4))
          else none
        | _ => none
      else none
    else none
  | _ => none

/-- `CADASTRAL_PATTERN.search`: leftmost match, with the leading `\b`
requiring the preceding character (when any) to be a non-word character. -/
def searchCad : List Char → Option Char → Option (List Char)
  | [], _ => none
  | c :: cs, prev =>
    match (match prev with
           | none => matchCadAt (c :: cs)
           | some p => if wordChar p then none else matchCadAt (c :: cs)) with
    | some m => some m
    | none => searchCad cs (some c)

def CADASTRAL_PATTERN_search (s : String) : Option String :=
  (searchCad s.data none).map String.mk

/-- Substring test: does `needle` occur contiguously in the list? -/
def listContains (needle : List Char) : List Char → Bool
  | [] => needle.isEmpty
  | c :: cs => needle.isPrefixOf (c :: cs) || listContains needle cs

/-- `"кадастровый номер" in key.lower()`. -/
def containsKadPhrase (key : String) : Bool :=
  listContains ("кадастровый номер".data) (key.data.map pyLower)

def extract_cadastral_number_from_item (item_fields desc_fields :
    List (String × String)) : String :=
  match desc_fields.find? (fun kv =>
      containsKadPhrase kv.1 && CADASTRAL_PATTERN_fullmatch (stripStr kv.2)) with
  | some kv => stripStr kv.2
  | none =>
    match item_fields.find? (fun kv =>
        containsKadPhrase kv.1 &&
          CADASTRAL_PATTERN_fullmatch (stripStr kv.2)) with
    | some kv => stripStr kv.2
    | none =>
      match CADASTRAL_PATTERN_search
          ((dictGet? item_fields "title").getD "" ++ " " ++
            (dictGet? item_fields "description").getD "") with
      | some m => m
      | none => ""

/-- C4: a structured field value (parsed-description field or raw item
field whose name contains "кадастровый номер") is accepted only when its
trimmed value fully matches the two/two/4-19/1-6-digit colon pattern —
"77:01:000:1" is never accepted from a structured field while
"77:01:0001:1" is — and the contains-style substring scan is used only in
the final fallback over the concatenated title and description. -/
theorem cadastral_fullmatch_discipline :
    (∀ (fields : List (String × String)) (kv : String × String),
        fields.find? (fun kv =>
          containsKadPhrase kv.1 &&
            CADASTRAL_PATTERN_fullmatch (stripStr kv.2)) = some kv →
        CADASTRAL_PATTERN_fullmatch (stripStr kv.2) = true)
    ∧ CADASTRAL_PATTERN_fullmatch "77:01:000:1" = false
    ∧ CADASTRAL_PATTERN_fullmatch "77:01:0001:1" = true
    ∧ extract_cadastral_number_from_item []
        [("Кадастровый номер", "77:01:000:1")] = ""
    ∧ extract_cadastral_number_from_item []
        [("Кадастровый номер", "77:01:0001:1")] = "77:01:0001:1"
    ∧ (∀ (item_fields desc_fields : List (String × String)),
        desc_fields.find? (fun kv => containsKadPhrase kv.1 &&
          CADASTRAL_PATTERN_fullmatch (stripStr kv.2)) = none →
        item_fields.find? (fun kv => containsKadPhrase kv.1 &&
          CADASTRAL_PATTERN_fullmatch (stripStr kv.2)) = none →
        extract_cadastral_number_from_item item_fields desc_fields =
          (CADASTRAL_PATTERN_search
            ((dictGet? item_fields "title").getD "" ++ " " ++
              (dictGet? item_fields "description").getD "")).getD "")
    ∧ extract_cadastral_number_from_item
        [("title", "см. лот 77:01:0001:1 на сайте")] [] = "77:01:0001:1" := by
  refine ⟨?_, by decide, by decide, by decide, by decide, ?_, by decide⟩
  · intro fields kv hf
    have hp := List.find?_some hf
    exact (Bool.and_eq_true _ _).mp hp |>.2
  · intro item_fields desc_fields hdesc hitem
    rw [extract_cadastral_number_from_item, hdesc, hitem]
    cases hs : CADASTRAL_PATTERN_search
        ((dictGet? item_fields "title").getD "" ++ " " ++
          (dictGet? item_fields "description").getD "") with
    | none => rfl
    | some m => rfl

theorem cadastral_fullmatch_discipline_witness :
    [("Кадастровый номер", "77:01:0001:1")].find? (fun kv =>
        containsKadPhrase kv.1 &&
          CADASTRAL_PATTERN_fullmatch (stripStr kv.2)) =
      some ("Кадастровый номер", "77:01:0001:1")
    ∧ CADASTRAL_PATTERN_fullmatch
        (stripStr ("Кадастровый номер", "77:01:0001:1").2) = true :=
  ⟨by decide,
    cadastral_fullmatch_discipline.1 [("Кадастровый номер", "77:01:0001:1")]
      ("Кадастровый номер", "77:01:0001:1") (by decide)⟩

/-! ### Enrichment client (`fetch_geoportal_data` and
`format_error_response`, collector.py lines 211-244; driver lines 584-591) -/

/-- Values `resp.json()` can produce. -/
inductive Json where
  | null : Json
  | bool (b : Bool) : Json
  | num (n : Int) : Json
  | str (s : String) : Json
  | arr (xs : List Json) : Json
  | obj (kvs : List (String × Json)) : Json

/-- `json.dumps(·, ensure_ascii=False)` (string escaping is not modelled;
no claim depends on it). -/
def dumps : Json → String
  | .null => "null"
  | .bool true => "true"
  | .bool false => "false"
  | .num n => toString n
  | .str s => "\"" ++ s ++ "\""
  | .arr xs => "[" ++ String.intercalate ", " (xs.attach.map
      (fun x => dumps x.1)) ++ "]"
  | .obj kvs => "\x7b" ++ String.intercalate ", " (kvs.attach.map
      (fun kv => "\"" ++ kv.1.1 ++ "\": " ++ dumps kv.1.2)) ++ "\x7d"
decreasing_by
  · simp only [Json.arr.sizeOf_spec]
    have := List.sizeOf_lt_of_mem x.2
    omega
  · simp only [Json.obj.sizeOf_spec]
    have h1 := List.sizeOf_lt_of_mem kv.2
    rcases kv with ⟨⟨a, b⟩, hmem⟩
    simp only [Prod.mk.sizeOf_spec] at h1 ⊢
    omega

theorem toDigitsCore_length_ge (b : Nat) :
    ∀ (f n : Nat) (ds : List Char),
      ds.length ≤ (Nat.toDigitsCore b f n ds).length := by
  intro f
  induction f with
  | zero => intro n ds; exact Nat.le_refl _
  | succ f ih =>
    intro n ds
    rw [Nat.toDigitsCore]
    split
    · exact Nat.le_succ_of_le (Nat.le_refl _)
    · have := ih (n / b) (Nat.digitChar (n % b) :: ds)
      simp only [List.length_cons] at this
      omega

theorem nat_repr_ne_empty (n : Nat) : Nat.repr n ≠ "" := by
  intro h
  have hlen : (Nat.repr n).length = 0 := by rw [h]; rfl
  rw [Nat.repr] at hlen
  have h1 : (Nat.toDigits 10 n).asString.length = (Nat.toDigits 10 n).length :=
    rfl
  rw [h1, Nat.toDigits, Nat.toDigitsCore] at hlen
  split at hlen
  · simp at hlen
  · have := toDigitsCore_length_ge 10 n (n / 10) [Nat.digitChar (n % 10)]
    simp only [List.length_cons, List.length_nil] at this
    omega

theorem int_toString_ne_empty (n : Int) : toString n ≠ "" := by
  show Int.repr n ≠ ""
  cases n with
  | ofNat m => exact nat_repr_ne_empty m
  | negSucc m =>
    intro h
    have hlen : (Int.repr (Int.negSucc m)).length = 0 := by rw [h]; rfl
    rw [Int.repr] at hlen
    have h1 : ("-" ++ (m + 1).repr).length = 1 + (m + 1).repr.length :=
      String.length_append _ _
    rw [h1] at hlen
    omega

theorem string_append_ne_empty_left {a : String} (ha : a ≠ "") (b : String) :
    a ++ b ≠ "" := by
  intro h
  have hlen : (a ++ b).length = 0 := by rw [h]; rfl
  rw [String.length_append] at hlen
  apply ha
  have : a.length = 0 := by omega
  cases a with
  | mk data =>
    cases data with
    | nil => rfl
    | cons c cs =>
      rw [String.length, List.length_cons] at this
      omega

theorem dumps_ne_empty (j : Json) : dumps j ≠ "" := by
  cases j with
  | null => simp [dumps]
  | bool b => cases b <;> simp [dumps]
  | num n =>
    rw [show dumps (Json.num n) = toString n from by simp [dumps]]
    exact int_toString_ne_empty n
  | str s =>
    rw [show dumps (Json.str s) = "\"" ++ s ++ "\"" from by simp [dumps]]
    rw [String.append_assoc]
    exact string_append_ne_empty_left (by decide) _
  | arr xs =>
    rw [show dumps (Json.arr xs) = "[" ++ (String.intercalate ", "
      (xs.attach.map (fun x => dumps x.1)) ++ "]") from by
        simp [dumps, String.append_assoc]]
    exact string_append_ne_empty_left (by decide) _
  | obj kvs =>
    rw [show dumps (Json.obj kvs) = "\x7b" ++ (String.intercalate ", "
      (kvs.attach.map (fun kv => "\"" ++ kv.1.1 ++ "\": " ++ dumps kv.1.2))
        ++ "\x7d") from by simp [dumps, String.append_assoc]]
    exact string_append_ne_empty_left (by decide) _

/-- Outcome of `session.get` on the geoportal endpoint: an HTTP response
(with its status and, for 200, the parsed JSON body), or a raised
exception with its rendered message (this also covers a 200 whose body
fails to parse, since `resp.json()` sits inside the `try`). -/
inductive HttpOutcome where
  | response (status : Nat) (url headers body : String) (parsed : Json)
  | exn (msg : String)

def format_error_response (status : Nat) (url headers body : String) :
    String :=
  "Status: " ++ toString status ++ "\n" ++
    "URL: " ++ url ++ "\n" ++
    "Headers: " ++ headers ++ "\n" ++
    "Body: " ++ body

def fetch_geoportal_data : HttpOutcome → Option Json × Option String
  | .response status url headers body parsed =>
    if status = 200 then (some parsed, none)
    else (none, some (format_error_response status url headers body))
  | .exn msg => (none, some ("Exception: " ++ msg))

/-- Driver lines 584-591: the lookup is attempted iff `cad_num` is
non-empty; on `error is None` the payload cell receives the dumped JSON,
otherwise the error cell receives the diagnostic.  (`geo_data` is `None`
only in the impossible success-without-body case; `json.dumps(None)` is
`"null"`, which `Json.null` reproduces.) -/
def enrichCells (cad_num : String) (outcome : HttpOutcome) :
    String × String :=
  if cad_num = "" then ("", "")
  else
    match fetch_geoportal_data outcome with
    | (geo_data, none) => (dumps (geo_data.getD Json.null), "")
    | (_, some err) => ("", err)

theorem format_error_response_ne_empty (status : Nat)
    (url headers body : String) :
    format_error_response status url headers body ≠ "" := by
  intro h
  have hlen : (format_error_response status url headers body).length = 0 := by
    rw [h]
    rfl
  rw [format_error_response] at hlen
  repeat rw [String.length_append] at hlen
  have h8 : ("Status: " : String).length = 8 := rfl
  omega

/-- C8: when an identifier was found (lookup attempted), exactly one of the
two enrichment cells is non-empty — the payload on HTTP success, the
diagnostic on HTTP failure or transport exception; when no identifier was
found, both cells are empty. -/
theorem enrich_cells_exclusive (cad_num : String) (outcome : HttpOutcome) :
    (cad_num ≠ "" →
      ((enrichCells cad_num outcome).1 ≠ "" ∧
        (enrichCells cad_num outcome).2 = "")
      ∨ ((enrichCells cad_num outcome).1 = "" ∧
        (enrichCells cad_num outcome).2 ≠ ""))
    ∧ (cad_num = "" → enrichCells cad_num outcome = ("", "")) := by
  constructor
  · intro hcad
    rw [enrichCells, if_neg hcad]
    cases outcome with
    | response status url headers body parsed =>
      by_cases hs : status = 200
      · rw [show fetch_geoportal_data
            (.response status url headers body parsed)
            = (some parsed, none) from by
          rw [fetch_geoportal_data, if_pos hs]]
        exact Or.inl ⟨dumps_ne_empty parsed, rfl⟩
      · rw [show fetch_geoportal_data
            (.response status url headers body parsed) =
            (none, some (format_error_response status url headers body))
            from by rw [fetch_geoportal_data, if_neg hs]]
        exact Or.inr ⟨rfl, format_error_response_ne_empty _ _ _ _⟩
    | exn msg =>
      rw [show fetch_geoportal_data (.exn msg) =
          (none, some ("Exception: " ++ msg)) from rfl]
      exact Or.inr ⟨rfl, string_append_ne_empty_left (by decide) _⟩
  · intro hcad
    rw [enrichCells, if_pos hcad]

theorem enrich_cells_exclusive_witness :
    (("77:01:0001:1" : String) ≠ "" ∧
      (((enrichCells "77:01:0001:1"
          (.response 200 "u" "h" "b" Json.null)).1 ≠ "" ∧
        (enrichCells "77:01:0001:1"
          (.response 200 "u" "h" "b" Json.null)).2 = "")
      ∨ ((enrichCells "77:01:0001:1"
          (.response 200 "u" "h" "b" Json.null)).1 = "" ∧
        (enrichCells "77:01:0001:1"
          (.response 200 "u" "h" "b" Json.null)).2 ≠ "")))
    ∧ (("" : String) = "" ∧
        enrichCells "" (.exn "boom") = ("", "")) :=
  ⟨⟨by decide,
    (enrich_cells_exclusive "77:01:0001:1"
      (.response 200 "u" "h" "b" Json.null)).1 (by decide)⟩,
    rfl,
    (enrich_cells_exclusive "" (.exn "boom")).2 rfl⟩

/-! ### Retry sweep (driver, collector.py lines 510-543)

The window is the list of rows the loop iterates over (`start_row =
max(2, total_rows - 99)` up to the end of the read range); indices here
are window-relative, absolute row = `start_row + i`. The lookup is the
geoportal call: `some payload` (the dumped JSON string) on success,
`none` on renewed failure. -/

structure SheetRow where
  cad : String
  err : String
  geo : String
deriving DecidableEq

/-- The loop's guard `if cad and CADASTRAL_PATTERN.fullmatch(cad) and err:`
on the stripped cells. -/
def retryCondition (r : SheetRow) : Bool :=
  stripStr r.cad ≠ "" ∧ CADASTRAL_PATTERN_fullmatch (stripStr r.cad)
    ∧ stripStr r.err ≠ ""

inductive CellRef where
  | geoCell (row : Nat)
  | errCell (row : Nat)
deriving DecidableEq

/-- The `rows_to_update` list: two targeted writes per successful retry
(payload, then cleared error); nothing for skipped rows or renewed
failures. -/
def sweepUpdatesGo (lookup : String → Option String) :
    List SheetRow → Nat → List (CellRef × String)
  | [], _ => []
  | r :: rest, row_num =>
    if retryCondition r then
      match lookup (stripStr r.cad) with
      | some geo_str =>
        (CellRef.geoCell row_num, geo_str) ::
          (CellRef.errCell row_num, "") ::
          sweepUpdatesGo lookup rest (row_num + 1)
      | none => sweepUpdatesGo lookup rest (row_num + 1)
    else sweepUpdatesGo lookup rest (row_num + 1)

/-- Apply one targeted range write to the window. -/
def applyUpdate (rows : List SheetRow) : CellRef × String → List SheetRow
  | (CellRef.geoCell i, v) =>
    rows.modify (fun r => { r with geo := v }) i
  | (CellRef.errCell i, v) =>
    rows.modify (fun r => { r with err := v }) i

/-- The whole sweep: build `rows_to_update`, then apply each write. -/
def applySweep (lookup : String → Option String) (rows : List SheetRow) :
    List SheetRow :=
  (sweepUpdatesGo lookup rows 0).foldl applyUpdate rows

/-- What the sweep does to one row. -/
def sweepRow (lookup : String → Option String) (r : SheetRow) : SheetRow :=
  if retryCondition r then
    match lookup (stripStr r.cad) with
    | some geo_str => { r with geo := geo_str, err := "" }
    | none => r
  else r

theorem modify_append_cons {α : Type} (f : α → α) (pre : List α) (r : α)
    (rest : List α) :
    List.modify f pre.length (pre ++ r :: rest) = pre ++ f r :: rest := by
  induction pre with
  | nil => rfl
  | cons a pre ih =>
    show a :: List.modify f pre.length (pre ++ r :: rest) = _
    rw [ih]
    rfl

theorem applySweep_go (lookup : String → Option String) (rows : List SheetRow) :
    ∀ pre : List SheetRow,
      (sweepUpdatesGo lookup rows pre.length).foldl applyUpdate (pre ++ rows)
        = pre ++ rows.map (sweepRow lookup) := by
  induction rows with
  | nil =>
    intro pre
    rw [sweepUpdatesGo, List.foldl_nil, List.map_nil]
  | cons r rest ih =>
    intro pre
    rw [sweepUpdatesGo, List.map_cons]
    by_cases hc : retryCondition r = true
    · rw [if_pos hc]
      cases hl : lookup (stripStr r.cad) with
      | some geo_str =>
        rw [List.foldl_cons, List.foldl_cons]
        have h1 : applyUpdate (pre ++ r :: rest)
            (CellRef.geoCell pre.length, geo_str) =
            pre ++ { r with geo := geo_str } :: rest := by
          rw [applyUpdate]
          exact modify_append_cons _ pre r rest
        rw [h1]
        have h2 : applyUpdate (pre ++ { r with geo := geo_str } :: rest)
            (CellRef.errCell pre.length, "") =
            pre ++ { r with geo := geo_str, err := "" } :: rest := by
          rw [applyUpdate]
          exact modify_append_cons _ pre _ rest
        rw [h2]
        have hrow : sweepRow lookup r = { r with geo := geo_str, err := "" } := by
          rw [sweepRow, if_pos hc, hl]
        rw [hrow]
        have hlen : (pre ++ [{ r with geo := geo_str, err := "" }]).length
            = pre.length + 1 := by
          rw [List.length_append]
          rfl
        have := ih (pre ++ [{ r with geo := geo_str, err := "" }])
        rw [hlen, List.append_assoc, List.append_assoc] at this
        simp only [List.singleton_append] at this
        exact this
      | none =>
        have hrow : sweepRow lookup r = r := by
          rw [sweepRow, if_pos hc, hl]
        rw [hrow]
        have hlen : (pre ++ [r]).length = pre.length + 1 := by
          rw [List.length_append]
          rfl
        have := ih (pre ++ [r])
        rw [hlen, List.append_assoc, List.append_assoc] at this
        simp only [List.singleton_append] at this
        exact this
    · rw [if_neg hc]
      have hrow : sweepRow lookup r = r := by
        rw [sweepRow, if_neg hc]
      rw [hrow]
      have hlen : (pre ++ [r]).length = pre.length + 1 := by
        rw [List.length_append]
        rfl
      have := ih (pre ++ [r])
      rw [hlen, List.append_assoc, List.append_assoc] at this
      simp only [List.singleton_append] at this
      exact this

/-- The sweep acts independently on each window row. -/
theorem applySweep_eq_map (lookup : String → Option String)
    (rows : List SheetRow) :
    applySweep lookup rows = rows.map (sweepRow lookup) := by
  have := applySweep_go lookup rows []
  simp only [List.nil_append, List.length_nil] at this
  exact this

/-- C5: within the retry window, a row is re-attempted iff its trimmed
identifier cell fully matches the pattern and its error cell is non-empty;
a successful re-attempt overwrites the payload cell and clears the error
cell of that row, a failed one leaves both cells untouched, and a row whose
identifier does not fully match is never retried (left untouched). -/
theorem retry_sweep_spec :
    (∀ r : SheetRow, retryCondition r = true ↔
        (CADASTRAL_PATTERN_fullmatch (stripStr r.cad) = true ∧
          stripStr r.err ≠ ""))
    ∧ (∀ (lookup : String → Option String) (rows : List SheetRow),
        applySweep lookup rows = rows.map (sweepRow lookup))
    ∧ (∀ (lookup : String → Option String) (r : SheetRow) (geo_str : String),
        retryCondition r = true → lookup (stripStr r.cad) = some geo_str →
        sweepRow lookup r = { r with geo := geo_str, err := "" })
    ∧ (∀ (lookup : String → Option String) (r : SheetRow),
        retryCondition r = true → lookup (stripStr r.cad) = none →
        sweepRow lookup r = r)
    ∧ (∀ (lookup : String → Option String) (r : SheetRow),
        retryCondition r = false → sweepRow lookup r = r) := by
  refine ⟨?_, applySweep_eq_map, ?_, ?_, ?_⟩
  · intro r
    rw [retryCondition]
    constructor
    · intro h
      rcases of_decide_eq_true h with ⟨_, h2, h3⟩
      exact ⟨h2, h3⟩
    · intro ⟨h2, h3⟩
      apply decide_eq_true
      refine ⟨?_, h2, h3⟩
      intro he
      rw [he] at h2
      exact absurd h2 (by decide)
  · intro lookup r geo_str hc hl
    rw [sweepRow, if_pos hc, hl]
  · intro lookup r hc hl
    rw [sweepRow, if_pos hc, hl]
  · intro lookup r hc
    rw [sweepRow, if_neg (by rw [hc]; exact Bool.false_ne_true)]

theorem retry_sweep_spec_witness :
    retryCondition ⟨" 77:01:0001:1 ", "boom", "old"⟩ = true
    ∧ (fun s => if s = "77:01:0001:1" then some "payload" else none)
        (stripStr (" 77:01:0001:1 " : String)) = some "payload"
    ∧ sweepRow (fun s => if s = "77:01:0001:1" then some "payload" else none)
        ⟨" 77:01:0001:1 ", "boom", "old"⟩
        = ⟨" 77:01:0001:1 ", "", "payload"⟩ :=
  ⟨by decide, by decide,
    retry_sweep_spec.2.2.1
      (fun s => if s = "77:01:0001:1" then some "payload" else none)
      ⟨" 77:01:0001:1 ", "boom", "old"⟩ "payload" (by decide) (by decide)⟩

/-! ### Watermark filtering and ordering (driver, collector.py lines
554-567)

Timestamps are modelled as `Option Nat`: `none` when
`item.published_parsed` is absent or fails to convert, `some t` otherwise,
with `0` playing `datetime.min`. Python's stable sort by
`x[0] or datetime.min` is modelled by an insertion sort with the same key;
no claim depends on the order of equal keys. -/

structure RssItem where
  pub : Option Nat
  uid : Nat
deriving DecidableEq

/-- `x[0] or datetime.min`. -/
def sortKey : Option Nat → Nat
  | none => 0
  | some t => t

def itemLe (a b : RssItem) : Prop := sortKey a.pub ≤ sortKey b.pub

instance : DecidableRel itemLe := fun _ _ => Nat.decLe _ _

instance : IsTotal RssItem itemLe :=
  ⟨fun a b => Nat.le_total (sortKey a.pub) (sortKey b.pub)⟩

instance : IsTrans RssItem itemLe :=
  ⟨fun _ _ _ hab hbc => Nat.le_trans hab hbc⟩

/-- The loop's skip test `if pub_dt and last_pub_date and
pub_dt <= last_pub_date: continue`, negated: `true` means the item is
materialized and appended. -/
def keepItem (last_pub_date : Option Nat) (it : RssItem) : Bool :=
  !(match it.pub, last_pub_date with
    | some t, some W => decide (t ≤ W)
    | _, _ => false)

/-- `rss_items.sort(...)` followed by the filtered materialization loop:
the selected items in processing order. -/
def selectNew (last_pub_date : Option Nat) (items : List RssItem) :
    List RssItem :=
  (List.insertionSort itemLe items).filter (keepItem last_pub_date)

/-- C1: with an existing watermark `W`, an item is selected (materialized
and appended) iff it has no parsable publish timestamp or its timestamp is
strictly greater than `W` (equality is skipped); the selected items are
processed in ascending timestamp order with timestamp-less items ordered
as minimal. -/
theorem watermark_filter_spec (W : Nat) (items : List RssItem) :
    (∀ x : RssItem, x ∈ selectNew (some W) items ↔
        (x ∈ items ∧ (x.pub = none ∨ ∃ t, x.pub = some t ∧ W < t)))
    ∧ (selectNew (some W) items).Pairwise itemLe := by
  constructor
  · intro x
    rw [selectNew, List.mem_filter, List.mem_insertionSort]
    constructor
    · intro hx
      obtain ⟨hmem, hkeep⟩ := hx
      refine ⟨hmem, ?_⟩
      rcases hp : x.pub with _ | t
      · exact Or.inl rfl
      · refine Or.inr ⟨t, rfl, ?_⟩
        rw [keepItem.eq_def, hp] at hkeep
        simp only [Bool.not_eq_true'] at hkeep
        have := of_decide_eq_false hkeep
        omega
    · intro hx
      obtain ⟨hmem, hnew⟩ := hx
      refine ⟨hmem, ?_⟩
      rw [keepItem.eq_def]
      rcases hnew with hp | ⟨t, hp, ht⟩
      · rw [hp]
        rfl
      · rw [hp]
        simp only [Bool.not_eq_true']
        exact decide_eq_false (by omega)
  · have hsorted : (List.insertionSort itemLe items).Pairwise itemLe :=
      List.sorted_insertionSort itemLe items
    exact hsorted.sublist (List.filter_sublist _)

theorem watermark_filter_spec_witness :
    (⟨some 2, 0⟩ : RssItem) ∈ selectNew (some 1)
      [⟨some 1, 1⟩, ⟨some 2, 0⟩, ⟨none, 2⟩] :=
  ((watermark_filter_spec 1 [⟨some 1, 1⟩, ⟨some 2, 0⟩, ⟨none, 2⟩]).1
    ⟨some 2, 0⟩).mpr ⟨by decide, Or.inr ⟨2, rfl, by decide⟩⟩

end Collector
